import Mathlib

/-!
Verification of the alias-aware help resolution engine of the jj CLI
(`src/cli/src/commands/help.rs`).

The development shallowly embeds the engine:

* `resolve_alias`, `format_alias_definition`, `find_keyword` and the
  orchestration of `cmd_help` are translated from `help.rs`.
* `expand_alias_recursively` lives in `crate::cli_util`, which is not part of
  the provided sources; it is modelled from the specification (section 4.1),
  using a fuel argument to make the recursion structural.  A fuel of
  (number of distinct alias keys + 1) is proved sufficient.
* The external argument parser (clap) and the shell-quoting helper (shlex)
  are modelled from the specification as well.

Output is modelled as the ordered list of chunks written to stdout; each
`write!`/`writeln!` call of the source appends one element.
-/

namespace JJHelp

/-- An alias table: configuration mapping from alias name to its configured
token sequence (`[aliases]` section of the user settings).  Keys are unique in
the TOML source; lookup takes the first matching entry. -/
def AliasTable := List (String × List String)

/-- Looks up an alias definition by name (the combination of
`config.table_keys("aliases")` membership and `config.get(["aliases", name])`
in `resolve_alias`). -/
def lookupAlias (table : AliasTable) (name : String) : Option (List String) :=
  (List.find? (fun p => p.1 = name) table).map (fun p => p.2)

/-- Result of one recursive alias expansion.  `outOfFuel` is an artifact of
the fuel-based embedding (proved unreachable for sufficient fuel); `missing`
models a config lookup failure (proved unreachable when the start name is a
key). -/
inductive ExpandResult where
  | ok (tokens : List String)
  | cyclicAlias
  | missing
  | outOfFuel
  deriving DecidableEq, Repr

/-- Modelled from the spec: `crate::cli_util::expand_alias_recursively` is not
under the provided sources.  Spec section 4.1: before expanding a name, if it
is already in the seen-set, fail with a CyclicAlias condition; otherwise add
it to the seen-set, fetch its configured tokens, and whenever the first token
is itself an alias name, replace that token by its recursive expansion with
the remaining tokens of the current level appended unchanged.  The seen-set is
threaded through the whole recursion.  `fuel` makes the recursion structural;
it strictly dominates the number of alias keys not yet seen. -/
def expandFuel (table : AliasTable) : Nat → String → List String → ExpandResult
  | 0, _, _ => .outOfFuel
  | fuel + 1, name, seen =>
    if name ∈ seen then .cyclicAlias
    else
      match lookupAlias table name with
      | none => .missing
      | some [] => .ok []
      | some (head :: rest) =>
        if (lookupAlias table head).isSome then
          match expandFuel table fuel head (name :: seen) with
          | .ok expanded => .ok (expanded ++ rest)
          | r => r
        else .ok (head :: rest)

/-- The distinct alias names of the table. -/
def aliasKeys (table : AliasTable) : List String :=
  (table.map Prod.fst).dedup

/-- Sufficient fuel for `expandFuel` on `table`. -/
def aliasFuel (table : AliasTable) : Nat :=
  (aliasKeys table).length + 1

/-- Modelled from the spec: the recursive alias expansion entry point with an
explicit seen-set, instantiated with fuel proved sufficient. -/
def expand_alias_recursively (table : AliasTable) (name : String)
    (seen : List String) : ExpandResult :=
  expandFuel table (aliasFuel table) name seen

/-- The number of alias keys not yet in the seen-set: the measure that shrinks
on every recursive expansion step. -/
def unseenKeys (table : AliasTable) (seen : List String) : Nat :=
  ((aliasKeys table).filter (fun k => decide (k ∉ seen))).length

/-- The error conditions surfaced by the engine (spec section 7).
`internalError` absorbs the unreachable `missing`/`outOfFuel` artifacts. -/
inductive CmdError where
  | cyclicAlias
  | extraneousAliasArguments (a : String)
  | invalidSubcommand
  | internalError
  deriving DecidableEq, Repr

/-- Translated from `resolve_alias` in `help.rs`: returns `Except.ok none` when
the name is not an alias key, otherwise the configured definition paired with
its recursive expansion (seen-set starting empty), propagating a cycle
failure. -/
def resolve_alias (table : AliasTable) (name : String) :
    Except CmdError (Option (List String × List String)) :=
  match lookupAlias table name with
  | none => .ok none
  | some originalDefinition =>
    match expand_alias_recursively table name [] with
    | .ok resolvedDefinition => .ok (some (originalDefinition, resolvedDefinition))
    | .cyclicAlias => .error .cyclicAlias
    | .missing => .error .internalError
    | .outOfFuel => .error .internalError

/-- The one-step head relation that the recursive expansion follows: from
`name` to the first token of its definition, provided that token is itself an
alias key. -/
def aliasStep (table : AliasTable) (name : String) : Option String :=
  match lookupAlias table name with
  | some (head :: _) => if (lookupAlias table head).isSome then some head else none
  | _ => none

/-- The chain of alias names visited by the recursive expansion starting from
`name`: iterated `aliasStep`. -/
def chainFrom (table : AliasTable) (name : String) : Nat → Option String
  | 0 => some name
  | k + 1 => (chainFrom table name k).bind (aliasStep table)

/-- A node of the external command registry (clap `Command`): a name, an
opaque long-help content, and uniquely named children. -/
inductive Cmd where
  | mk (name : String) (help : String) (children : List Cmd)

/-- The name of a registry node. -/
def Cmd.name : Cmd → String
  | .mk n _ _ => n

/-- The long-help content of a registry node. -/
def Cmd.help : Cmd → String
  | .mk _ h _ => h

/-- The children of a registry node. -/
def Cmd.children : Cmd → List Cmd
  | .mk _ _ cs => cs

/-- Model of clap `Command::find_subcommand` (and `find_subcommand_mut`, which
differs only in mutability): lookup of a child by name. -/
def find_subcommand (c : Cmd) (name : String) : Option Cmd :=
  c.children.find? (fun s => s.name = name)

/-- Translated from the subcommand walk of `cmd_help` (help.rs lines 103-113):
descend child by child while the next token names a child of the current node,
returning the deepest matched node together with the depth reached. -/
def matchPath (c : Cmd) : List String → Cmd × Nat
  | [] => (c, 0)
  | t :: rest =>
    match find_subcommand c t with
    | some sub =>
      let r := matchPath sub rest
      (r.1, r.2 + 1)
    | none => (c, 0)

/-- Translated from the mutable re-walk of `cmd_help` (help.rs lines 116-120):
`try_fold` of `find_subcommand_mut` over a list of names. -/
def tryWalk (c : Cmd) : List String → Option Cmd
  | [] => some c
  | t :: rest =>
    match find_subcommand c t with
    | some sub => tryWalk sub rest
    | none => none

/-- A token that looks like a flag rather than a subcommand name: it starts
with a dash. -/
def flagLike (t : String) : Bool :=
  match t.toList with
  | ch :: _ => ch = '-'
  | [] => false

/-- Modelled from the spec: the external argument parser validation
(`app.try_get_matches_from_mut` in help.rs lines 95-99, owned by clap, not
under the provided sources).  Spec sections 4.2/4.3: an unknown subcommand
name at a position where a subcommand was expected is an InvalidSubcommand
condition; trailing flag-like tokens, everything after a `--` separator, and
positional values at childless nodes are tolerated. -/
def clapInvalidSubcommand (c : Cmd) : List String → Bool
  | [] => false
  | t :: rest =>
    if t = "--" then false
    else
      match find_subcommand c t with
      | some sub => clapInvalidSubcommand sub rest
      | none =>
        if flagLike t then false
        else !(List.isEmpty c.children)

/-- Modelled from the spec: a character the shell-quoting helper (the external
shlex crate) leaves unquoted. -/
def shlexSafeChar (ch : Char) : Bool :=
  ch.isAlphanum || ch = '@' || ch = '%' || ch = '+' || ch = '=' ||
    ch = ':' || ch = ',' || ch = '.' || ch = '/' || ch = '-' || ch = '_'

/-- Modelled from the spec: shell-quoting of one token (shlex): safe tokens
pass through unchanged, others are wrapped in double quotes with backslash
escaping of quote and backslash characters. -/
def shlexQuote (t : String) : String :=
  if t.isEmpty then "\"\""
  else if t.toList.all shlexSafeChar then t
  else
    "\"" ++
      String.join (t.toList.map (fun ch =>
        if ch = '"' || ch = '\\' then "\\" ++ ch.toString else ch.toString)) ++
    "\""

/-- Modelled from the spec: `shlex::try_join` — joins shell-quoted tokens with
single spaces; fails only on a NUL character. -/
def shlexTryJoin (tokens : List String) : Option String :=
  if tokens.any (fun t => t.toList.contains (Char.ofNat 0)) then none
  else some (String.intercalate " " (tokens.map shlexQuote))

/-- Translated from `format_alias_definition` in `help.rs`: the alias banner
line.  The debug rendering of the failure branch is abstracted by `toString`
of the token list. -/
def format_alias_definition (aliasDefinition : List String) : String :=
  match shlexTryJoin aliasDefinition with
  | some joined => "Alias for \"" ++ joined ++ "\""
  | none => "Alias for " ++ toString aliasDefinition

/-- A keyword registry entry (`struct Keyword` in help.rs). -/
structure Keyword where
  name : String
  description : String
  content : String
  deriving DecidableEq, Repr

/-- The compiled-in keyword registry (`KEYWORDS` in help.rs).  The content
blobs are external markdown files pulled in at compile time; they are
abstracted here by their file names. -/
def KEYWORDS : List Keyword :=
  [ ⟨"bookmarks", "Named pointers to revisions (similar to Git branches)",
      "docs:bookmarks.md"⟩,
    ⟨"config", "How and where to set configuration options", "docs:config.md"⟩,
    ⟨"filesets", "A functional language for selecting a set of files",
      "docs:filesets.md"⟩,
    ⟨"glossary", "Definitions of various terms", "docs:glossary.md"⟩,
    ⟨"revsets", "A functional language for selecting a set of revision",
      "docs:revsets.md"⟩,
    ⟨"templates", "A functional language to customize command output",
      "docs:templates.md"⟩,
    ⟨"tutorial", "Show a tutorial to get started with jj", "docs:tutorial.md"⟩ ]

/-- Translated from `find_keyword` in `help.rs`. -/
def find_keyword (keywords : List Keyword) (name : String) : Option Keyword :=
  keywords.find? (fun keyword => keyword.name = name)

/-- The observable outcome of one help request: the ordered chunks written to
stdout on success, an error with the chunks written before it was returned, or
a panic (the `expect`/`unwrap` calls of the source). -/
inductive HelpResult where
  | ok (writes : List String)
  | err (e : CmdError) (writes : List String)
  | panicked (writes : List String)
  deriving DecidableEq, Repr

/-- Whether a help request failed with an error. -/
def HelpResult.isErr : HelpResult → Bool
  | .err _ _ => true
  | _ => false

/-- The chunks a help request wrote to stdout. -/
def HelpResult.writtenOutput : HelpResult → List String
  | .ok w => w
  | .err _ w => w
  | .panicked w => w

/-- Whether a help request failed with the ExtraneousAliasArguments
condition. -/
def HelpResult.failsWithExtraneous : HelpResult → Bool
  | .err (.extraneousAliasArguments _) _ => true
  | _ => false

/-- Translated from the alias phase of `cmd_help` (help.rs lines 69-85):
resolve the first command token (propagating a resolution error), reject
additional tokens after a resolved alias, and produce the pending banner
definition together with the effective command path. -/
def aliasPhase (aliases : AliasTable) (command : List String) :
    Except CmdError (Option (List String) × List String) :=
  match command.head? with
  | none => .ok (none, command)
  | some firstArg =>
    match resolve_alias aliases firstArg with
    | .error e => .error e
    | .ok none => .ok (none, command)
    | .ok (some (originalDefinition, resolvedDefinition)) =>
      if 1 < command.length then
        .error (.extraneousAliasArguments firstArg)
      else .ok (some originalDefinition, resolvedDefinition)

/-- Translated from `cmd_help` in `help.rs`, in source order:
keyword branch (lookup and `expect`, then write the content); alias
resolution of the first command token with error propagation, then the
extra-arguments check; the external-parser InvalidSubcommand check; the
immutable subcommand-depth walk; the mutable re-walk with `unwrap`; then the
writes: alias banner and blank separator when an alias was resolved, followed
by the long help of the matched node. -/
def cmd_help (keywords : List Keyword) (aliases : AliasTable) (app : Cmd)
    (keyword : Option String) (command : List String) : HelpResult :=
  match keyword with
  | some name =>
    match find_keyword keywords name with
    | none => .panicked []
    | some kw => .ok [kw.content]
  | none =>
    match aliasPhase aliases command with
    | .error e => .err e []
    | .ok (aliasOriginal, commandPath) =>
      if clapInvalidSubcommand app commandPath then .err .invalidSubcommand []
      else
        match tryWalk app (commandPath.take (matchPath app commandPath).2) with
        | none => .panicked []
        | some subcommand =>
          let bannerWrites : List String :=
            match aliasOriginal with
            | some aliasDefinition => [format_alias_definition aliasDefinition, ""]
            | none => []
          .ok (bannerWrites ++ [subcommand.help])

/-- The `log` node of the sample registry. -/
def logCmd : Cmd := .mk "log" "log help text" []

/-- A sample command registry mirroring the shape used by the spec scenarios:
a root with a childless `log` command and a `bookmark` command that has a
`list` subcommand. -/
def jjTree : Cmd :=
  .mk "jj" "jj root help" [logCmd, .mk "bookmark" "bookmark help"
    [.mk "list" "bookmark list help" []]]

/-! ## Helper lemmas about alias expansion -/

/-- An alias lookup succeeds exactly for the distinct alias keys. -/
theorem lookupAlias_isSome_iff {table : AliasTable} {name : String} :
    (lookupAlias table name).isSome = true ↔ name ∈ aliasKeys table := by
  simp [lookupAlias, aliasKeys, List.find?_isSome, List.mem_dedup, List.mem_map]

/-- Filtering with a stronger predicate gives at most as many elements. -/
theorem length_filter_le_filter (l : List String) (p q : String → Bool)
    (h : ∀ a, q a = true → p a = true) :
    (l.filter q).length ≤ (l.filter p).length := by
  have hs : List.Sublist (l.filter q) (l.filter p) :=
    List.monotone_filter_right l h
  exact hs.length_le

/-- On a list containing `name` outside `seen`, excluding `name` as well
strictly shrinks the filtered length. -/
theorem length_filter_cons_lt (name : String) (seen : List String) :
    ∀ l : List String, name ∈ l → name ∉ seen →
      (l.filter (fun k => decide (k ∉ name :: seen))).length <
        (l.filter (fun k => decide (k ∉ seen))).length := by
  intro l
  induction l with
  | nil => intro h; cases h
  | cons a l ih =>
    intro hkey hns
    have hmono : ∀ b : String, (decide (b ∉ name :: seen)) = true →
        (decide (b ∉ seen)) = true := by
      intro b hb
      simp only [decide_eq_true_eq, List.mem_cons, not_or] at hb ⊢
      exact hb.2
    by_cases ha : a = name
    · subst ha
      have h1 : (decide (a ∉ a :: seen)) = false := by simp
      have h2 : (decide (a ∉ seen)) = true := by simp [hns]
      have hsub := length_filter_le_filter l _ _ hmono
      simp only [List.filter_cons, h1, h2]
      simp only [Bool.false_eq_true, if_false, if_true, List.length_cons]
      omega
    · have hkey2 : name ∈ l := by
        rcases List.mem_cons.mp hkey with h | h
        · exact absurd h.symm ha
        · exact h
      have hlt := ih hkey2 hns
      by_cases hb : a ∈ seen
      · have h2 : (decide (a ∉ seen)) = false := by simp [hb]
        have h3 : (decide (a ∉ name :: seen)) = false := by simp [hb]
        simp only [List.filter_cons, h2, h3]
        simp only [Bool.false_eq_true, if_false]
        exact hlt
      · have h2 : (decide (a ∉ seen)) = true := by simp [hb]
        have h3 : (decide (a ∉ name :: seen)) = true := by
          simp only [decide_eq_true_eq, List.mem_cons, not_or]
          exact ⟨fun h => ha h, hb⟩
        simp only [List.filter_cons, h2, h3, if_true, List.length_cons]
        omega

/-- Adding a fresh key to the seen-set strictly shrinks the unseen measure. -/
theorem unseenKeys_cons_lt {table : AliasTable} {name : String}
    {seen : List String} (hkey : name ∈ aliasKeys table) (hns : name ∉ seen) :
    unseenKeys table (name :: seen) < unseenKeys table seen :=
  length_filter_cons_lt name seen (aliasKeys table) hkey hns

/-- With fuel strictly above the unseen measure, expansion never runs out of
fuel. -/
theorem expandFuel_ne_outOfFuel {table : AliasTable} :
    ∀ fuel name seen, unseenKeys table seen < fuel →
      expandFuel table fuel name seen ≠ .outOfFuel := by
  intro fuel
  induction fuel with
  | zero => intro name seen h; omega
  | succ fuel ih =>
    intro name seen h
    rw [expandFuel]
    by_cases hseen : name ∈ seen
    · simp [hseen]
    · simp only [if_neg hseen]
      rcases hlook : lookupAlias table name with _ | tokens
      · simp
      · rcases tokens with _ | ⟨head, rest⟩
        · simp
        · by_cases hhead : (lookupAlias table head).isSome = true
          · simp only [hhead, if_true]
            have hkey : name ∈ aliasKeys table :=
              lookupAlias_isSome_iff.mp (by rw [hlook]; rfl)
            have hlt : unseenKeys table (name :: seen) < fuel := by
              have := unseenKeys_cons_lt hkey hseen
              omega
            have hrec := ih head (name :: seen) hlt
            rcases hr : expandFuel table fuel head (name :: seen) with ts | _ | _ | _
            · simp
            · simp
            · simp
            · exact absurd hr hrec
          · simp only [Bool.not_eq_true] at hhead
            simp [hhead]

/-- Expansion never reports a missing definition when the start name is an
alias key. -/
theorem expandFuel_ne_missing {table : AliasTable} :
    ∀ fuel name seen, (lookupAlias table name).isSome = true →
      expandFuel table fuel name seen ≠ .missing := by
  intro fuel
  induction fuel with
  | zero => intro name seen _; rw [expandFuel]; simp
  | succ fuel ih =>
    intro name seen hname
    rw [expandFuel]
    by_cases hseen : name ∈ seen
    · simp [hseen]
    · simp only [if_neg hseen]
      rcases hlook : lookupAlias table name with _ | tokens
      · rw [hlook] at hname; simp at hname
      · rcases tokens with _ | ⟨head, rest⟩
        · simp
        · by_cases hhead : (lookupAlias table head).isSome = true
          · simp only [hhead, if_true]
            have hrec := ih head (name :: seen) hhead
            rcases hr : expandFuel table fuel head (name :: seen) with ts | _ | _ | _
            · simp
            · simp
            · exact absurd hr hrec
            · simp
          · simp only [Bool.not_eq_true] at hhead
            simp [hhead]

/-- Any two sufficient fuels give the same expansion result. -/
theorem expandFuel_fuel_irrel {table : AliasTable} :
    ∀ f1 f2 name seen, unseenKeys table seen < f1 → unseenKeys table seen < f2 →
      expandFuel table f1 name seen = expandFuel table f2 name seen := by
  intro f1
  induction f1 with
  | zero => intro f2 name seen h1 _; omega
  | succ f1 ih =>
    intro f2 name seen h1 h2
    rcases f2 with _ | f2
    · omega
    · rw [expandFuel, expandFuel]
      by_cases hseen : name ∈ seen
      · simp [hseen]
      · simp only [if_neg hseen]
        rcases hlook : lookupAlias table name with _ | tokens
        · rfl
        · rcases tokens with _ | ⟨head, rest⟩
          · rfl
          · by_cases hhead : (lookupAlias table head).isSome = true
            · simp only [hhead, if_true]
              have hkey : name ∈ aliasKeys table :=
                lookupAlias_isSome_iff.mp (by rw [hlook]; rfl)
              have hlt := unseenKeys_cons_lt hkey hseen
              rw [ih f2 head (name :: seen) (by omega) (by omega)]
            · simp only [Bool.not_eq_true] at hhead
              simp [hhead]

/-! ## Lemmas about the head chain -/

/-- Shifting the chain by one along a known first step. -/
theorem chainFrom_shift {table : AliasTable} {name head : String}
    (h : aliasStep table name = some head) :
    ∀ k, chainFrom table name (k + 1) = chainFrom table head k := by
  intro k
  induction k with
  | zero => simp [chainFrom, h]
  | succ k ih => rw [chainFrom, ih, chainFrom]

/-- Once the chain stops, it stays stopped. -/
theorem chainFrom_none_add {table : AliasTable} {name : String} {k : Nat}
    (h : chainFrom table name k = none) :
    ∀ m, chainFrom table name (k + m) = none := by
  intro m
  induction m with
  | zero => exact h
  | succ m ih => rw [← Nat.add_assoc, chainFrom, ih]; rfl

/-- If the chain is defined at `j`, it is defined at every earlier index. -/
theorem chainFrom_isSome_of_le {table : AliasTable} {name : String}
    (k j : Nat) (hkj : k ≤ j) (h : (chainFrom table name j).isSome = true) :
    (chainFrom table name k).isSome = true := by
  rcases hck : chainFrom table name k with _ | x
  · have := chainFrom_none_add hck (j - k)
    rw [Nat.add_sub_cancel' hkj] at this
    rw [this] at h
    simp at h
  · rfl

/-- A chain defined one step in means the start name has a step, hence an
alias definition. -/
theorem aliasStep_isSome_of_chain_one {table : AliasTable} {name : String}
    (h : (chainFrom table name 1).isSome = true) :
    (aliasStep table name).isSome = true := by
  rw [chainFrom, chainFrom] at h
  simpa using h

/-- A name with a step has an alias definition. -/
theorem lookup_isSome_of_aliasStep {table : AliasTable} {name : String}
    (h : (aliasStep table name).isSome = true) :
    (lookupAlias table name).isSome = true := by
  unfold aliasStep at h
  rcases hl : lookupAlias table name with _ | tokens
  · rw [hl] at h; simp at h
  · rfl

/-- A successful expansion implies the visited head chain avoids the seen-set
and never revisits a name. -/
theorem expandFuel_ok_chain {table : AliasTable} :
    ∀ fuel name seen ts, expandFuel table fuel name seen = .ok ts →
      ∀ k x, chainFrom table name k = some x →
        x ∉ seen ∧ ∀ k2, k2 < k → chainFrom table name k2 ≠ some x := by
  intro fuel
  induction fuel with
  | zero =>
    intro name seen ts h
    rw [expandFuel] at h
    cases h
  | succ fuel ih =>
    intro name seen ts h k x hk
    rw [expandFuel] at h
    by_cases hseen : name ∈ seen
    · simp [hseen] at h
    · simp only [if_neg hseen] at h
      rcases hlook : lookupAlias table name with _ | tokens
      · rw [hlook] at h; cases h
      · rw [hlook] at h
        have hstop : aliasStep table name = none →
            x ∉ seen ∧ ∀ k2, k2 < k → chainFrom table name k2 ≠ some x := by
          intro hstep
          have hchain1 : chainFrom table name 1 = none := by
            rw [chainFrom, chainFrom]
            simp [hstep]
          rcases k with _ | k
          · rw [chainFrom] at hk
            cases hk
            exact ⟨hseen, by omega⟩
          · have := chainFrom_none_add hchain1 k
            rw [Nat.add_comm 1 k] at this
            rw [this] at hk
            cases hk
        rcases tokens with _ | ⟨head, rest⟩
        · exact hstop (by rw [aliasStep, hlook])
        · by_cases hhead : (lookupAlias table head).isSome = true
          · simp only [hhead, if_true] at h
            rcases hr : expandFuel table fuel head (name :: seen) with e | _ | _ | _ <;>
              rw [hr] at h
            · have hstep : aliasStep table name = some head := by
                simp [aliasStep, hlook, hhead]
              have ihh := ih head (name :: seen) e hr
              rcases k with _ | m
              · rw [chainFrom] at hk
                cases hk
                refine ⟨hseen, by omega⟩
              · rw [chainFrom_shift hstep m] at hk
                have hm := ihh m x hk
                have hxne : x ≠ name := by
                  intro hx
                  exact hm.1 (hx ▸ List.mem_cons_self name seen)
                have hxseen : x ∉ seen := fun hx =>
                  hm.1 (List.mem_cons_of_mem name hx)
                refine ⟨hxseen, ?_⟩
                intro k2 hk2
                rcases k2 with _ | m2
                · rw [chainFrom]
                  intro hc
                  cases hc
                  exact hxne rfl
                · rw [chainFrom_shift hstep m2]
                  exact hm.2 m2 (by omega)
            · cases h
            · cases h
            · cases h
          · exact hstop (by rw [aliasStep, hlook]; simp [hhead])

/-! ## Lemmas about the command walk -/

/-- Re-walking the matched prefix always succeeds and reaches the node the
immutable walk found. -/
theorem tryWalk_take_depth : ∀ (path : List String) (c : Cmd),
    tryWalk c (path.take (matchPath c path).2) = some (matchPath c path).1 := by
  intro path
  induction path with
  | nil => intro c; rfl
  | cons t rest ih =>
    intro c
    rcases hf : find_subcommand c t with _ | sub
    · simp [matchPath, hf, tryWalk]
    · simp only [matchPath, hf, List.take_succ_cons, tryWalk]
      exact ih sub

/-! ## Claim theorems -/

/-- Claim C3: for every finite token sequence and every command registry, the
command-path matcher is total and deterministic (it is a Lean function): it
descends child-by-child while each token names a child of the current node,
stops at the first token that does not, never reports an error (its result
type has no error case), and returns the root at depth 0 for the empty token
sequence. -/
theorem claim_C3 (c : Cmd) :
    matchPath c [] = (c, 0) ∧
    (∀ t rest sub, find_subcommand c t = some sub →
      matchPath c (t :: rest) =
        ((matchPath sub rest).1, (matchPath sub rest).2 + 1)) ∧
    (∀ t rest, find_subcommand c t = none → matchPath c (t :: rest) = (c, 0)) := by
  refine ⟨rfl, ?_, ?_⟩
  · intro t rest sub hf
    simp [matchPath, hf]
  · intro t rest hf
    simp [matchPath, hf]

/-- Witness for C3 at a concrete registry: a non-child token stops the match
at the root, and the empty sequence returns the root at depth 0. -/
theorem claim_C3_witness :
    find_subcommand jjTree "-r" = none ∧
    matchPath jjTree ["-r"] = (jjTree, 0) ∧
    matchPath jjTree [] = (jjTree, 0) := by
  refine ⟨rfl, (claim_C3 jjTree).2.2 "-r" [] rfl, (claim_C3 jjTree).1⟩

/-- Claim C10: the `unwrap` after the mutable subcommand walk never panics:
re-walking the first `subcommand_depth` tokens with `find_subcommand_mut`
returns `some` (and in fact reaches the very node the immutable walk found),
because `subcommand_depth` is the length of the prefix on which the immutable
walk succeeded. -/
theorem claim_C10 (c : Cmd) (path : List String) :
    tryWalk c (path.take (matchPath c path).2) = some (matchPath c path).1 :=
  tryWalk_take_depth path c

/-- The unseen measure over an empty seen-set is the number of distinct alias
keys. -/
theorem unseenKeys_nil (table : AliasTable) :
    unseenKeys table [] = (aliasKeys table).length := by
  simp [unseenKeys]

/-- The empty seen-set is always below the chosen fuel. -/
theorem unseenKeys_nil_lt_aliasFuel (table : AliasTable) :
    unseenKeys table [] < aliasFuel table := by
  rw [unseenKeys_nil, aliasFuel]
  omega

/-- Claim C9: for every finite alias table and every starting name, alias
resolution terminates with a definite outcome: `resolve_alias` either returns
a result or fails with an explicit CyclicAlias error — in particular the fuel
bound derived from the strictly growing seen-set is never exhausted. -/
theorem claim_C9 (table : AliasTable) (name : String) :
    (∃ v, resolve_alias table name = .ok v) ∨
    resolve_alias table name = .error .cyclicAlias := by
  rcases hlook : lookupAlias table name with _ | orig
  · exact .inl ⟨none, by unfold resolve_alias; rw [hlook]⟩
  · have hnofuel := expandFuel_ne_outOfFuel (aliasFuel table) name []
      (unseenKeys_nil_lt_aliasFuel table)
    have hnomiss := expandFuel_ne_missing (aliasFuel table) name []
      (by rw [hlook]; rfl)
    rcases he : expandFuel table (aliasFuel table) name [] with ts | _ | _ | _
    · exact .inl ⟨some (orig, ts),
        by unfold resolve_alias expand_alias_recursively; rw [hlook, he]⟩
    · exact .inr
        (by unfold resolve_alias expand_alias_recursively; rw [hlook, he])
    · exact absurd he hnomiss
    · exact absurd he hnofuel

/-- Claim C2: whenever the head chain of alias expansion starting from the
resolved name revisits a name (a direct self-reference gives `i = 0`,
`j = 1`; an indirect two-step cycle gives `i = 0`, `j = 2`; any longer
reachable cycle gives some repeat as well), `resolve_alias` fails with the
CyclicAlias condition: the single seen-set threaded through the whole
top-level call stops the recursion at the first revisited name. -/
theorem claim_C2 (table : AliasTable) (name x : String) (i j : Nat)
    (hij : i < j) (hi : chainFrom table name i = some x)
    (hj : chainFrom table name j = some x) :
    resolve_alias table name = .error .cyclicAlias := by
  have hj1 : (chainFrom table name 1).isSome = true :=
    chainFrom_isSome_of_le 1 j (by omega) (by rw [hj]; rfl)
  have hname : (lookupAlias table name).isSome = true :=
    lookup_isSome_of_aliasStep (aliasStep_isSome_of_chain_one hj1)
  have hnofuel := expandFuel_ne_outOfFuel (aliasFuel table) name []
    (unseenKeys_nil_lt_aliasFuel table)
  have hnomiss := expandFuel_ne_missing (aliasFuel table) name [] hname
  have hnotok : ∀ ts, expandFuel table (aliasFuel table) name [] ≠ .ok ts := by
    intro ts hok
    have hchain := expandFuel_ok_chain (aliasFuel table) name [] ts hok j x hj
    exact hchain.2 i hij hi
  rcases hl : lookupAlias table name with _ | orig
  · rw [hl] at hname; simp at hname
  · rcases he : expandFuel table (aliasFuel table) name [] with ts | _ | _ | _
    · exact absurd he (hnotok ts)
    · unfold resolve_alias expand_alias_recursively
      rw [hl, he]
    · exact absurd he hnomiss
    · exact absurd he hnofuel

/-- Witness for C2: the two-alias cycle of the spec scenario, with the repeat
at chain indices 0 and 2. -/
theorem claim_C2_witness :
    (0 : Nat) < 2 ∧
    chainFrom [("x", ["y"]), ("y", ["x"])] "x" 0 = some "x" ∧
    chainFrom [("x", ["y"]), ("y", ["x"])] "x" 2 = some "x" ∧
    resolve_alias [("x", ["y"]), ("y", ["x"])] "x" =
      .error .cyclicAlias :=
  ⟨by omega, rfl, rfl,
    claim_C2 [("x", ["y"]), ("y", ["x"])] "x" "x" 0 2 (by omega) rfl rfl⟩

/-- Claim C4: `resolve_alias` returns `none` exactly when the name is not an
alias key (and this is not an error); otherwise it returns the tokens exactly
as configured paired with the recursive expansion, in which a leading alias
token is replaced by its own recursive expansion with the remaining tokens of
that level appended unchanged; on the spec example table, resolving `a` yields
expanded tokens `["log", "-r", "@", "x"]`. -/
theorem claim_C4 (table : AliasTable) (name : String) :
    (resolve_alias table name = .ok none ↔ lookupAlias table name = none) ∧
    (∀ orig ex, resolve_alias table name = .ok (some (orig, ex)) →
      lookupAlias table name = some orig ∧
        expand_alias_recursively table name [] = .ok ex) ∧
    (∀ head t e, lookupAlias table name = some (head :: t) →
      (lookupAlias table head).isSome = true →
      expand_alias_recursively table head [name] = .ok e →
      resolve_alias table name = .ok (some (head :: t, e ++ t))) ∧
    resolve_alias [("a", ["b", "x"]), ("b", ["log", "-r", "@"])] "a" =
      .ok (some (["b", "x"], ["log", "-r", "@", "x"])) := by
  refine ⟨⟨?_, ?_⟩, ?_, ?_, by rfl⟩
  · intro h
    rcases hl : lookupAlias table name with _ | orig
    · rfl
    · unfold resolve_alias at h
      rw [hl] at h
      rcases he : expand_alias_recursively table name [] with ts | _ | _ | _ <;>
        rw [he] at h <;> cases h
  · intro h
    unfold resolve_alias
    rw [h]
  · intro orig ex h
    rcases hl : lookupAlias table name with _ | orig2
    · unfold resolve_alias at h
      rw [hl] at h
      cases h
    · unfold resolve_alias at h
      rw [hl] at h
      rcases he : expand_alias_recursively table name [] with ts | _ | _ | _ <;>
        rw [he] at h
      · simp only [Except.ok.injEq, Option.some.injEq, Prod.mk.injEq] at h
        obtain ⟨h1, h2⟩ := h
        subst h1
        subst h2
        constructor <;> rfl
      · cases h
      · cases h
      · cases h
  · intro head t e hl hhead he
    have hkey : name ∈ aliasKeys table :=
      lookupAlias_isSome_iff.mp (by rw [hl]; rfl)
    have hm1 : unseenKeys table [name] < unseenKeys table [] :=
      unseenKeys_cons_lt hkey (by simp)
    have hm0 := unseenKeys_nil table
    have hirr := @expandFuel_fuel_irrel table ((aliasKeys table).length)
      (aliasFuel table) head [name] (by omega) (by unfold aliasFuel; omega)
    have he2 : expandFuel table ((aliasKeys table).length) head [name] = .ok e := by
      rw [hirr]
      exact he
    unfold resolve_alias expand_alias_recursively
    rw [hl]
    have hexp : expandFuel table (aliasFuel table) name [] = .ok (e ++ t) := by
      rw [show aliasFuel table = (aliasKeys table).length + 1 from rfl]
      rw [expandFuel]
      simp [hl, hhead, he2]
    rw [hexp]

/-- Witness for C4: the spec example `a → [b, x]`, `b → [log, -r, @]`,
resolved through the third conjunct. -/
theorem claim_C4_witness :
    lookupAlias [("a", ["b", "x"]), ("b", ["log", "-r", "@"])] "a" =
      some ["b", "x"] ∧
    (lookupAlias [("a", ["b", "x"]), ("b", ["log", "-r", "@"])] "b").isSome =
      true ∧
    expand_alias_recursively [("a", ["b", "x"]), ("b", ["log", "-r", "@"])]
      "b" ["a"] = .ok ["log", "-r", "@"] ∧
    resolve_alias [("a", ["b", "x"]), ("b", ["log", "-r", "@"])] "a" =
      .ok (some (["b", "x"], ["log", "-r", "@", "x"])) :=
  ⟨rfl, rfl, by rfl,
    (claim_C4 [("a", ["b", "x"]), ("b", ["log", "-r", "@"])] "a").2.2.1
      "b" ["x"] ["log", "-r", "@"] rfl rfl (by rfl)⟩

/-! ## Lemmas and claims about the help orchestration -/

/-- When no command token names an alias (in particular whenever the alias
table is empty), the help request validates the path and renders the help of
the deepest matched node. -/
theorem cmd_help_no_alias (keywords : List Keyword) (aliases : AliasTable)
    (app : Cmd) (command : List String)
    (hres : ∀ f r, command = f :: r → resolve_alias aliases f = .ok none) :
    cmd_help keywords aliases app none command =
      if clapInvalidSubcommand app command then .err .invalidSubcommand []
      else .ok [(matchPath app command).1.help] := by
  have hstep : aliasPhase aliases command = .ok (none, command) := by
    rcases command with _ | ⟨f, r⟩
    · rfl
    · have := hres f r rfl
      simp [aliasPhase, this]
  simp only [cmd_help, hstep]
  split
  · rfl
  · rw [tryWalk_take_depth]
    simp

/-- Claim C6: with no alias in play, a token that is an unknown subcommand
name at a position where a subcommand was expected (per the spec-modelled
external parser check) makes the request fail with InvalidSubcommand, whereas
a path the check tolerates renders the help of the deepest matched node; in
particular `help log -- -r` renders the help for `log` (matched at depth 1)
with no error. -/
theorem claim_C6 (app : Cmd) (path : List String) :
    (clapInvalidSubcommand app path = true →
      cmd_help KEYWORDS [] app none path = .err .invalidSubcommand []) ∧
    (clapInvalidSubcommand app path = false →
      cmd_help KEYWORDS [] app none path = .ok [(matchPath app path).1.help]) ∧
    cmd_help KEYWORDS [] jjTree none ["log", "--", "-r"] =
      .ok ["log help text"] ∧
    (matchPath jjTree ["log", "--", "-r"]).2 = 1 ∧
    (matchPath jjTree ["log", "--", "-r"]).1 = logCmd := by
  have hbase := cmd_help_no_alias KEYWORDS [] app path
    (fun f r h => by rfl)
  refine ⟨?_, ?_, by decide, by decide, by rfl⟩
  · intro h
    rw [hbase, if_pos h]
  · intro h
    rw [hbase, if_neg (by simp [h])]

/-- Witness for C6: an unknown plain token under the sample root errors, and
the `help log -- -r` scenario succeeds. -/
theorem claim_C6_witness :
    clapInvalidSubcommand jjTree ["oops"] = true ∧
    cmd_help KEYWORDS [] jjTree none ["oops"] = .err .invalidSubcommand [] ∧
    cmd_help KEYWORDS [] jjTree none ["log", "--", "-r"] =
      .ok ["log help text"] :=
  ⟨by decide, (claim_C6 jjTree ["oops"]).1 (by decide),
    (claim_C6 jjTree ["oops"]).2.2.1⟩

/-- Claim C7: every error a help request returns is produced before any write
to the output stream: a failing request has an empty write list, so neither
the alias banner nor any help text is emitted on failure. -/
theorem claim_C7 (keywords : List Keyword) (aliases : AliasTable) (app : Cmd)
    (kw : Option String) (command : List String) (e : CmdError)
    (w : List String)
    (h : cmd_help keywords aliases app kw command = .err e w) : w = [] := by
  rcases kw with _ | name
  · rcases hstep : aliasPhase aliases command with e2 | ⟨ao, cp⟩ <;>
      simp only [cmd_help, hstep] at h
    · cases h
      rfl
    · by_cases hc : clapInvalidSubcommand app cp = true
      · rw [if_pos hc] at h
        cases h
        rfl
      · rw [if_neg hc] at h
        rcases ht : tryWalk app (cp.take (matchPath app cp).2) with _ | sub <;>
          simp only [ht] at h <;> simp at h
  · rcases hk : find_keyword keywords name with _ | kw2 <;>
      simp only [cmd_help, hk] at h <;> cases h

/-- Witness for C7: the cyclic-alias scenario of the spec fails with
CyclicAlias and has written nothing. -/
theorem claim_C7_witness :
    cmd_help KEYWORDS [("x", ["y"]), ("y", ["x"])] jjTree none ["x"] =
      .err .cyclicAlias [] ∧ ([] : List String) = [] :=
  ⟨by rfl, claim_C7 KEYWORDS [("x", ["y"]), ("y", ["x"])] jjTree none ["x"]
    .cyclicAlias [] (by rfl)⟩

/-- Counterexample to C5 as stated: `x` is a configured (cyclic) alias and an
additional token follows it, yet the request fails with CyclicAlias, not with
ExtraneousAliasArguments, because `cmd_help` propagates the resolution error
before the extra-arguments check. -/
theorem claim_C5_counterexample :
    cmd_help KEYWORDS [("x", ["x"])] jjTree none ["x", "extra"] =
      .err .cyclicAlias [] ∧
    HelpResult.failsWithExtraneous
      (cmd_help KEYWORDS [("x", ["x"])] jjTree none ["x", "extra"]) = false :=
  ⟨rfl, rfl⟩

/-- Claim C5 (amended): for every help request whose first token names a
configured alias whose resolution succeeds and that supplies at least one
additional token after the alias name, the engine fails with the
ExtraneousAliasArguments condition. -/
theorem claim_C5 (keywords : List Keyword) (aliases : AliasTable) (app : Cmd)
    (f : String) (rest : List String) (orig ex : List String)
    (hres : resolve_alias aliases f = .ok (some (orig, ex)))
    (hrest : rest ≠ []) :
    cmd_help keywords aliases app none (f :: rest) =
      .err (.extraneousAliasArguments f) [] := by
  have hlen : 1 < (f :: rest).length := by
    rcases rest with _ | ⟨a, l⟩
    · exact absurd rfl hrest
    · simp
  have hstep : aliasPhase aliases (f :: rest) =
      .error (.extraneousAliasArguments f) := by
    simp only [aliasPhase, List.head?_cons, hres]
    rw [if_pos hlen]
  rw [cmd_help, hstep]

/-- Witness for C5 (amended): `help b extra` with the configured alias `b`
fails with ExtraneousAliasArguments. -/
theorem claim_C5_witness :
    resolve_alias [("b", ["log", "-r", "@"])] "b" =
      .ok (some (["log", "-r", "@"], ["log", "-r", "@"])) ∧
    cmd_help KEYWORDS [("b", ["log", "-r", "@"])] jjTree none ["b", "extra"] =
      .err (.extraneousAliasArguments "b") [] :=
  ⟨rfl, claim_C5 KEYWORDS [("b", ["log", "-r", "@"])] jjTree "b" ["extra"]
    ["log", "-r", "@"] ["log", "-r", "@"] rfl (by simp)⟩

/-- Claim C8: a successful help request that resolved an alias writes, in this
exact order, the one-line banner built by shell-quoting the original
(unexpanded) configured definition, then a blank separator line, then the long
help of the node matched by the expanded tokens; on the spec scenario table
`b → [log, -r, @]`, `help b` emits the banner, a blank line, and the help
registered for `log`. -/
theorem claim_C8 (keywords : List Keyword) (aliases : AliasTable) (app : Cmd)
    (f : String) (orig ex : List String)
    (hres : resolve_alias aliases f = .ok (some (orig, ex)))
    (hvalid : clapInvalidSubcommand app ex = false) :
    cmd_help keywords aliases app none [f] =
      .ok [format_alias_definition orig, "", (matchPath app ex).1.help] ∧
    cmd_help KEYWORDS [("b", ["log", "-r", "@"])] jjTree none ["b"] =
      .ok ["Alias for \"log -r @\"", "", "log help text"] := by
  refine ⟨?_, by decide⟩
  have hstep : aliasPhase aliases [f] = .ok (some orig, ex) := by
    simp [aliasPhase, hres]
  simp only [cmd_help, hstep]
  rw [hvalid]
  simp only [Bool.false_eq_true, if_false]
  rw [tryWalk_take_depth]
  simp

/-- Witness for C8: the spec scenario evaluated concretely. -/
theorem claim_C8_witness :
    resolve_alias [("b", ["log", "-r", "@"])] "b" =
      .ok (some (["log", "-r", "@"], ["log", "-r", "@"])) ∧
    clapInvalidSubcommand jjTree ["log", "-r", "@"] = false ∧
    cmd_help KEYWORDS [("b", ["log", "-r", "@"])] jjTree none ["b"] =
      .ok [format_alias_definition ["log", "-r", "@"], "",
        (matchPath jjTree ["log", "-r", "@"]).1.help] :=
  ⟨rfl, by decide, (claim_C8 KEYWORDS [("b", ["log", "-r", "@"])] jjTree "b"
    ["log", "-r", "@"] ["log", "-r", "@"] rfl (by decide)).1⟩

/-- Claim C1, against the source: a keyword request whose name is not in the
compiled-in keyword registry does not return a NotFound error condition — the
translated code panics (the `expect` on `find_keyword` in help.rs line 57),
exactly the behavior the spec forbids.  The lookup itself correctly returns
`none` for the missing name. -/
theorem claim_C1 :
    find_keyword KEYWORDS "nonexistent" = none ∧
    cmd_help KEYWORDS [] jjTree (some "nonexistent") [] = .panicked [] :=
  ⟨rfl, rfl⟩

end JJHelp
